import Mathlib

/-!
Verification of the Connect-4 minimax / alpha-beta search program
(`src/connect4.py`).  The board is a 6×7 grid of integers (0 empty,
1 MAX, -1 MIN) stored as a list of rows, row 0 at the top.  Search
values are integers extended with -∞/+∞ (Python `float("-inf")` /
`float("inf")`), modelled as `WithBot (WithTop ℤ)`.  The global
`MAX_DEPTH` constant of the script becomes an explicit `maxD`
parameter; each search function recurses on `remaining = maxD - depth`,
which coincides with the script's `depth == MAX_DEPTH` test for all
calls the script makes (depth ≤ MAX_DEPTH).
-/

namespace Connect4

/-- Extended values: integers together with `-∞` and `+∞`. -/
abbrev EVal := WithBot (WithTop ℤ)

/-- Python `float("-inf")`. -/
def NEG_INF : EVal := ⊥

/-- Python `float("inf")`. -/
def POS_INF : EVal := ((⊤ : WithTop ℤ) : EVal)

/-- Injection of an integer score into the extended values. -/
def ival (n : ℤ) : EVal := ((n : WithTop ℤ) : EVal)

def MAX_DEPTH : Nat := 3
def ROWS : Nat := 6
def COLUMNS : Nat := 7

/-- A board is a list of rows (row 0 on top), each row a list of cells. -/
abbrev Board := List (List Int)

/-- Reading `cell board r c` is Python's `board[r][c]` (out-of-range reads give 0;
the program only ever indexes in range). -/
def cell (board : Board) (r c : Nat) : Int :=
  (board.getD r []).getD c 0

/-- Functional update of one cell, Python's `board[r][c] = v`. -/
def set_cell (board : Board) (r c : Nat) (v : Int) : Board :=
  board.set r ((board.getD r []).set c v)

/-- Python `create_initial_board`: 6×7 of zeros, then the fixed token placements. -/
def create_initial_board : Board :=
  let b0 : Board := List.replicate ROWS (List.replicate COLUMNS 0)
  let b1 := set_cell b0 5 0 (-1)
  let b2 := set_cell b1 4 0 1
  let b3 := set_cell b2 3 0 1
  let b4 := set_cell b3 5 1 1
  let b5 := set_cell b4 4 1 (-1)
  let b6 := set_cell b5 3 1 1
  let b7 := set_cell b6 5 2 1
  let b8 := set_cell b7 4 2 1
  let b9 := set_cell b8 3 2 1
  let b10 := set_cell b9 5 3 (-1)
  let b11 := set_cell b10 5 5 (-1)
  let b12 := set_cell b11 5 6 (-1)
  set_cell b12 4 6 (-1)

/-- Python `check_win(board, player)`: four aligned tokens in any direction. -/
def check_win (board : Board) (player : Int) : Bool :=
  -- Horizontal
  ((List.range ROWS).any fun r => (List.range (COLUMNS - 3)).any fun c =>
    (List.range 4).all fun i => cell board r (c + i) == player) ||
  -- Vertical
  ((List.range COLUMNS).any fun c => (List.range (ROWS - 3)).any fun r =>
    (List.range 4).all fun i => cell board (r + i) c == player) ||
  -- Diagonal bottom-right
  ((List.range (ROWS - 3)).any fun r => (List.range (COLUMNS - 3)).any fun c =>
    (List.range 4).all fun i => cell board (r + i) (c + i) == player) ||
  -- Diagonal top-right (rows 3 .. ROWS-1)
  ((List.range' 3 (ROWS - 3)).any fun r => (List.range (COLUMNS - 3)).any fun c =>
    (List.range 4).all fun i => cell board (r - i) (c + i) == player)

/-- Python `get_valid_moves(board, depth)`: columns 0,1,2 whose top cell is empty,
collected in order by the loop's `append`. -/
def get_valid_moves (board : Board) (depth : Nat) : List Nat :=
  let cols : List Nat := [0, 1, 2]
  cols.foldl (fun valid c => if cell board 0 c = 0 then valid ++ [c] else valid) []

/-- The row-scanning loop of `make_move`: first row from the bottom whose
cell in `col` is empty receives the token; if none, the board is returned
unchanged. -/
def dropLoop (board : Board) (col : Nat) (player : Int) : List Nat → Board
  | [] => board
  | r :: rs =>
    if cell board r col = 0 then set_cell board r col player
    else dropLoop board col player rs

/-- Python `make_move(board, col, player)`: scan rows bottom-up (`reversed(range(ROWS))`). -/
def make_move (board : Board) (col : Nat) (player : Int) : Board :=
  dropLoop board col player (List.range ROWS).reverse

/-- Python `evaluate(board)`: +100 for a MAX win, -100 for a MIN win, else 0. -/
def evaluate (board : Board) : Int :=
  if check_win board 1 then 100
  else if check_win board (-1) then -100
  else 0

/-- The MAX branch loop of `minimax`: `best_val` starts at `-inf` and is
raised whenever a child value exceeds it. -/
def mmMaxLoop (f : Board → EVal) (board : Board) : List Nat → EVal → EVal
  | [], best_val => best_val
  | m :: ms, best_val =>
    let val := f (make_move board m 1)
    mmMaxLoop f board ms (if best_val < val then val else best_val)

/-- The MIN branch loop of `minimax`: `best_val` starts at `+inf` and is
lowered whenever a child value is below it. -/
def mmMinLoop (f : Board → EVal) (board : Board) : List Nat → EVal → EVal
  | [], best_val => best_val
  | m :: ms, best_val =>
    let val := f (make_move board m (-1))
    mmMinLoop f board ms (if val < best_val then val else best_val)

/-- Python `minimax(board, depth)` with the depth limit made explicit through
`remaining = MAX_DEPTH - depth`; `remaining = 0` is the `depth == MAX_DEPTH`
test.  The `path` argument of the script only feeds the printed node label
and is dropped. -/
def minimaxGo : Nat → Board → Nat → EVal
  | 0, board, _ => ival (evaluate board)
  | remaining + 1, board, depth =>
    let score_win := evaluate board
    if score_win ≠ 0 then ival score_win
    else if depth % 2 = 0 then
      mmMaxLoop (fun b => minimaxGo remaining b (depth + 1)) board
        (get_valid_moves board depth) NEG_INF
    else
      mmMinLoop (fun b => minimaxGo remaining b (depth + 1)) board
        (get_valid_moves board depth) POS_INF

/-- Python `minimax(board, depth)` for depth limit `maxD`. -/
def minimax (maxD : Nat) (board : Board) (depth : Nat) : EVal :=
  minimaxGo (maxD - depth) board depth

/-- MAX branch loop of `alphabeta`: raises `value`, then `alpha`, and breaks
out of the move list as soon as `alpha ≥ beta`. -/
def abMaxLoop (f : Board → EVal → EVal → EVal) (board : Board) :
    List Nat → EVal → EVal → EVal → EVal
  | [], value, _, _ => value
  | m :: ms, value, alpha, beta =>
    let val := f (make_move board m 1) alpha beta
    let value' := if value < val then val else value
    let alpha' := if alpha < value' then value' else alpha
    if beta ≤ alpha' then value'
    else abMaxLoop f board ms value' alpha' beta

/-- MIN branch loop of `alphabeta`: lowers `value`, then `beta`, and breaks
as soon as `alpha ≥ beta`. -/
def abMinLoop (f : Board → EVal → EVal → EVal) (board : Board) :
    List Nat → EVal → EVal → EVal → EVal
  | [], value, _, _ => value
  | m :: ms, value, alpha, beta =>
    let val := f (make_move board m (-1)) alpha beta
    let value' := if val < value then val else value
    let beta' := if value' < beta then value' else beta
    if beta' ≤ alpha then value'
    else abMinLoop f board ms value' alpha beta'

/-- Python `alphabeta(board, depth, path, alpha, beta)` with
`remaining = MAX_DEPTH - depth` as in `minimaxGo`. -/
def alphabetaGo : Nat → Board → Nat → EVal → EVal → EVal
  | 0, board, _, _, _ => ival (evaluate board)
  | remaining + 1, board, depth, alpha, beta =>
    let score_win := evaluate board
    if score_win ≠ 0 then ival score_win
    else if depth % 2 = 0 then
      abMaxLoop (fun b a bt => alphabetaGo remaining b (depth + 1) a bt) board
        (get_valid_moves board depth) NEG_INF alpha beta
    else
      abMinLoop (fun b a bt => alphabetaGo remaining b (depth + 1) a bt) board
        (get_valid_moves board depth) POS_INF alpha beta

/-- Python `alphabeta(board, depth, alpha, beta)` for depth limit `maxD`. -/
def alphabeta (maxD : Nat) (board : Board) (depth : Nat) (alpha beta : EVal) : EVal :=
  alphabetaGo (maxD - depth) board depth alpha beta

/-- Kind of a collected node record (the `'type'` key of the dicts). -/
inductive NodeType where
  | terminal
  | max
  | min
deriving DecidableEq, Repr

/-- A record appended by `collect_tree_nodes`.  The derived `'state'` label
string is omitted (pure presentation); terminal records leave the
internal-node fields at their empty defaults, matching dicts without those
keys. -/
structure MNode where
  path : List Nat
  value : EVal
  type : NodeType
  depth : Nat
  children_values : List EVal := []
  moves : List Nat := []
deriving DecidableEq, Repr

/-- A record appended by `collect_alphabeta_tree_nodes`. -/
structure ABNode where
  path : List Nat
  value : EVal
  type : NodeType
  depth : Nat
  alpha : EVal
  beta : EVal
  children_values : List EVal := []
  moves : List Nat := []
  explored_moves : List Nat := []
  pruned : Bool := false
deriving DecidableEq, Repr

/-- MAX branch loop of `collect_tree_nodes`: returns the concatenated child
records, the child values in exploration order, and the running maximum. -/
def mcMaxLoop (f : Board → List Nat → List MNode × EVal) (board : Board)
    (path : List Nat) : List Nat → EVal → List MNode × List EVal × EVal
  | [], best_val => ([], [], best_val)
  | m :: ms, best_val =>
    let p := f (make_move board m 1) (path ++ [m])
    let q := mcMaxLoop f board path ms (if best_val < p.2 then p.2 else best_val)
    (p.1 ++ q.1, p.2 :: q.2.1, q.2.2)

/-- MIN branch loop of `collect_tree_nodes`. -/
def mcMinLoop (f : Board → List Nat → List MNode × EVal) (board : Board)
    (path : List Nat) : List Nat → EVal → List MNode × List EVal × EVal
  | [], best_val => ([], [], best_val)
  | m :: ms, best_val =>
    let p := f (make_move board m (-1)) (path ++ [m])
    let q := mcMinLoop f board path ms (if p.2 < best_val then p.2 else best_val)
    (p.1 ++ q.1, p.2 :: q.2.1, q.2.2)

/-- Python `collect_tree_nodes(board, depth, path)` with
`remaining = MAX_DEPTH - depth`: child records first, the node's own
record appended last, exactly as the script extends `nodes` before its
final `append`. -/
def collectGo : Nat → Board → Nat → List Nat → List MNode × EVal
  | 0, board, depth, path =>
    ([{ path := path, value := ival (evaluate board), type := .terminal,
        depth := depth }], ival (evaluate board))
  | remaining + 1, board, depth, path =>
    let score_win := evaluate board
    if score_win ≠ 0 then
      ([{ path := path, value := ival score_win, type := .terminal,
          depth := depth }], ival score_win)
    else if depth % 2 = 0 then
      let moves := get_valid_moves board depth
      let q := mcMaxLoop (fun b p => collectGo remaining b (depth + 1) p)
        board path moves NEG_INF
      (q.1 ++ [{ path := path, value := q.2.2, type := .max, depth := depth,
                 children_values := q.2.1, moves := moves }], q.2.2)
    else
      let moves := get_valid_moves board depth
      let q := mcMinLoop (fun b p => collectGo remaining b (depth + 1) p)
        board path moves POS_INF
      (q.1 ++ [{ path := path, value := q.2.2, type := .min, depth := depth,
                 children_values := q.2.1, moves := moves }], q.2.2)

/-- Python `collect_tree_nodes` from the root call (depth 0, empty path). -/
def collect_tree_nodes (maxD : Nat) (board : Board) : List MNode × EVal :=
  collectGo maxD board 0 []

/-- Result bundle of one iteration-sequence of the alpha-beta collecting
MAX loop: child records, child values, explored moves, final `value`,
final (locally mutated) `alpha`, and the pruned flag. -/
structure ACMaxOut where
  nodes : List ABNode
  children_vals : List EVal
  explored : List Nat
  value : EVal
  alpha : EVal
  pruned : Bool
deriving DecidableEq, Repr

/-- Same for the MIN loop, which mutates `beta` instead. -/
structure ACMinOut where
  nodes : List ABNode
  children_vals : List EVal
  explored : List Nat
  value : EVal
  beta : EVal
  pruned : Bool
deriving DecidableEq, Repr

/-- MAX branch loop of `collect_alphabeta_tree_nodes`: explores moves in
order, raising `value` then `alpha`, and breaks with `pruned := true` once
`alpha ≥ beta`. -/
def acMaxLoop (f : Board → List Nat → EVal → EVal → List ABNode × EVal)
    (board : Board) (path : List Nat) :
    List Nat → EVal → EVal → EVal → ACMaxOut
  | [], value, alpha, _ => ⟨[], [], [], value, alpha, false⟩
  | m :: ms, value, alpha, beta =>
    let p := f (make_move board m 1) (path ++ [m]) alpha beta
    let value' := if value < p.2 then p.2 else value
    let alpha' := if alpha < value' then value' else alpha
    if beta ≤ alpha' then ⟨p.1, [p.2], [m], value', alpha', true⟩
    else
      let q := acMaxLoop f board path ms value' alpha' beta
      ⟨p.1 ++ q.nodes, p.2 :: q.children_vals, m :: q.explored,
        q.value, q.alpha, q.pruned⟩

/-- MIN branch loop of `collect_alphabeta_tree_nodes`. -/
def acMinLoop (f : Board → List Nat → EVal → EVal → List ABNode × EVal)
    (board : Board) (path : List Nat) :
    List Nat → EVal → EVal → EVal → ACMinOut
  | [], value, _, beta => ⟨[], [], [], value, beta, false⟩
  | m :: ms, value, alpha, beta =>
    let p := f (make_move board m (-1)) (path ++ [m]) alpha beta
    let value' := if p.2 < value then p.2 else value
    let beta' := if value' < beta then value' else beta
    if beta' ≤ alpha then ⟨p.1, [p.2], [m], value', beta', true⟩
    else
      let q := acMinLoop f board path ms value' alpha beta'
      ⟨p.1 ++ q.nodes, p.2 :: q.children_vals, m :: q.explored,
        q.value, q.beta, q.pruned⟩

/-- Python `collect_alphabeta_tree_nodes(board, depth, path, alpha, beta)` with
`remaining = MAX_DEPTH - depth`. -/
def abCollectGo : Nat → Board → Nat → List Nat → EVal → EVal → List ABNode × EVal
  | 0, board, depth, path, alpha, beta =>
    ([{ path := path, value := ival (evaluate board), type := .terminal,
        depth := depth, alpha := alpha, beta := beta }], ival (evaluate board))
  | remaining + 1, board, depth, path, alpha, beta =>
    let score_win := evaluate board
    if score_win ≠ 0 then
      ([{ path := path, value := ival score_win, type := .terminal,
          depth := depth, alpha := alpha, beta := beta }], ival score_win)
    else if depth % 2 = 0 then
      let moves := get_valid_moves board depth
      let q := acMaxLoop (fun b p a bt => abCollectGo remaining b (depth + 1) p a bt)
        board path moves NEG_INF alpha beta
      (q.nodes ++ [{ path := path, value := q.value, type := .max, depth := depth,
                     alpha := q.alpha, beta := beta,
                     children_values := q.children_vals, moves := moves,
                     explored_moves := q.explored, pruned := q.pruned }], q.value)
    else
      let moves := get_valid_moves board depth
      let q := acMinLoop (fun b p a bt => abCollectGo remaining b (depth + 1) p a bt)
        board path moves POS_INF alpha beta
      (q.nodes ++ [{ path := path, value := q.value, type := .min, depth := depth,
                     alpha := alpha, beta := q.beta,
                     children_values := q.children_vals, moves := moves,
                     explored_moves := q.explored, pruned := q.pruned }], q.value)

/-- Python `collect_alphabeta_tree_nodes` from the root call. -/
def collect_alphabeta_tree_nodes (maxD : Nat) (board : Board)
    (alpha beta : EVal) : List ABNode × EVal :=
  abCollectGo maxD board 0 [] alpha beta

/-- Number of records of terminal type in a minimax node list. -/
def countTermM (nodes : List MNode) : Nat :=
  (nodes.filter fun rec => rec.type == .terminal).length

/-- Number of records of terminal type in an alpha-beta node list. -/
def countTermA (nodes : List ABNode) : Nat :=
  (nodes.filter fun rec => rec.type == .terminal).length

/-! ### Basic order facts about the update steps -/

lemma ite_lt_max (a b : EVal) : (if a < b then b else a) = max a b := by
  rcases lt_or_ge a b with h | h
  · rw [if_pos h, max_eq_right h.le]
  · rw [if_neg (not_lt.2 h), max_eq_left h]

lemma ite_lt_min (a b : EVal) : (if b < a then b else a) = min a b := by
  rcases lt_or_ge b a with h | h
  · rw [if_pos h, min_eq_right h.le]
  · rw [if_neg (not_lt.2 h), min_eq_left h]

lemma neg_inf_bot : NEG_INF = (⊥ : EVal) := rfl

lemma pos_inf_top : POS_INF = (⊤ : EVal) := rfl

/-! ### Unfolding and accumulator lemmas for the plain minimax loops -/

lemma mmMaxLoop_nil (f : Board → EVal) (board : Board) (v : EVal) :
    mmMaxLoop f board [] v = v := rfl

lemma mmMaxLoop_cons (f : Board → EVal) (board : Board) (m : Nat) (ms : List Nat)
    (v : EVal) :
    mmMaxLoop f board (m :: ms) v =
      mmMaxLoop f board ms (max v (f (make_move board m 1))) := by
  simp only [mmMaxLoop, ite_lt_max]

lemma mmMinLoop_nil (f : Board → EVal) (board : Board) (v : EVal) :
    mmMinLoop f board [] v = v := rfl

lemma mmMinLoop_cons (f : Board → EVal) (board : Board) (m : Nat) (ms : List Nat)
    (v : EVal) :
    mmMinLoop f board (m :: ms) v =
      mmMinLoop f board ms (min v (f (make_move board m (-1)))) := by
  simp only [mmMinLoop, ite_lt_min]

lemma mmMaxLoop_acc (f : Board → EVal) (board : Board) :
    ∀ (ms : List Nat) (u v : EVal),
      mmMaxLoop f board ms (max u v) = max u (mmMaxLoop f board ms v) := by
  intro ms
  induction ms with
  | nil => intro u v; rfl
  | cons m ms ih =>
    intro u v
    rw [mmMaxLoop_cons, mmMaxLoop_cons, max_assoc, ih]

lemma mmMinLoop_acc (f : Board → EVal) (board : Board) :
    ∀ (ms : List Nat) (u v : EVal),
      mmMinLoop f board ms (min u v) = min u (mmMinLoop f board ms v) := by
  intro ms
  induction ms with
  | nil => intro u v; rfl
  | cons m ms ih =>
    intro u v
    rw [mmMinLoop_cons, mmMinLoop_cons, min_assoc, ih]

lemma mmMaxLoop_eq_max_bot (f : Board → EVal) (board : Board) (ms : List Nat)
    (v : EVal) : mmMaxLoop f board ms v = max v (mmMaxLoop f board ms ⊥) := by
  have h := mmMaxLoop_acc f board ms v ⊥
  rwa [max_eq_left bot_le] at h

lemma mmMinLoop_eq_min_top (f : Board → EVal) (board : Board) (ms : List Nat)
    (v : EVal) : mmMinLoop f board ms v = min v (mmMinLoop f board ms ⊤) := by
  have h := mmMinLoop_acc f board ms v ⊤
  rwa [min_eq_left le_top] at h

lemma le_mmMaxLoop (f : Board → EVal) (board : Board) (ms : List Nat) (v : EVal) :
    v ≤ mmMaxLoop f board ms v := by
  rw [mmMaxLoop_eq_max_bot]; exact le_max_left _ _

lemma mmMinLoop_le (f : Board → EVal) (board : Board) (ms : List Nat) (v : EVal) :
    mmMinLoop f board ms v ≤ v := by
  rw [mmMinLoop_eq_min_top]; exact min_le_left _ _

lemma mmMaxLoop_mono (f : Board → EVal) (board : Board) (ms : List Nat)
    {v w : EVal} (h : v ≤ w) :
    mmMaxLoop f board ms v ≤ mmMaxLoop f board ms w := by
  rw [mmMaxLoop_eq_max_bot, mmMaxLoop_eq_max_bot f board ms w]
  exact max_le_max h le_rfl

lemma mmMinLoop_mono (f : Board → EVal) (board : Board) (ms : List Nat)
    {v w : EVal} (h : v ≤ w) :
    mmMinLoop f board ms v ≤ mmMinLoop f board ms w := by
  rw [mmMinLoop_eq_min_top, mmMinLoop_eq_min_top f board ms w]
  exact min_le_min h le_rfl

/-! ### Unfolding lemmas for the alpha-beta loops -/

lemma abMaxLoop_nil (f : Board → EVal → EVal → EVal) (board : Board)
    (v a b : EVal) : abMaxLoop f board [] v a b = v := rfl

lemma abMaxLoop_cons (f : Board → EVal → EVal → EVal) (board : Board)
    (m : Nat) (ms : List Nat) (v a b : EVal) :
    abMaxLoop f board (m :: ms) v a b =
      (if b ≤ max a (max v (f (make_move board m 1) a b)) then
        max v (f (make_move board m 1) a b)
      else
        abMaxLoop f board ms (max v (f (make_move board m 1) a b))
          (max a (max v (f (make_move board m 1) a b))) b) := by
  simp only [abMaxLoop, ite_lt_max]

lemma abMinLoop_nil (f : Board → EVal → EVal → EVal) (board : Board)
    (v a b : EVal) : abMinLoop f board [] v a b = v := rfl

lemma abMinLoop_cons (f : Board → EVal → EVal → EVal) (board : Board)
    (m : Nat) (ms : List Nat) (v a b : EVal) :
    abMinLoop f board (m :: ms) v a b =
      (if min b (min v (f (make_move board m (-1)) a b)) ≤ a then
        min v (f (make_move board m (-1)) a b)
      else
        abMinLoop f board ms (min v (f (make_move board m (-1)) a b)) a
          (min b (min v (f (make_move board m (-1)) a b)))) := by
  simp only [abMinLoop, ite_lt_min]

/-! ### Knuth–Moore style bounds: the alpha-beta loops against the minimax loops -/

lemma abMaxLoop_bounds (g : Board → EVal) (f : Board → EVal → EVal → EVal)
    (board : Board) (β α₀ : EVal)
    (hIH : ∀ b a, a < β → min β (g b) ≤ f b a β ∧ f b a β ≤ max a (g b)) :
    ∀ (ms : List Nat) (v : EVal), max α₀ v < β →
      min β (mmMaxLoop g board ms v) ≤ abMaxLoop f board ms v (max α₀ v) β ∧
      abMaxLoop f board ms v (max α₀ v) β ≤ max α₀ (mmMaxLoop g board ms v) := by
  intro ms
  induction ms with
  | nil =>
    intro v _
    rw [mmMaxLoop_nil, abMaxLoop_nil]
    exact ⟨min_le_right _ _, le_max_right _ _⟩
  | cons m ms ih =>
    intro v hvβ
    set x := f (make_move board m 1) (max α₀ v) β with hx
    set gm := g (make_move board m 1) with hgm
    obtain ⟨hx1, hx2⟩ := hIH (make_move board m 1) (max α₀ v) hvβ
    rw [abMaxLoop_cons, mmMaxLoop_cons, ← hx, ← hgm]
    have hkey : max (max α₀ v) (max v x) = max α₀ (max v x) := by
      rw [max_assoc]
      congr 1
      rw [← max_assoc, max_self]
    rw [hkey]
    have hvw : v ≤ max v gm := le_max_left _ _
    have hwM : max v gm ≤ mmMaxLoop g board ms (max v gm) := le_mmMaxLoop _ _ _ _
    by_cases hbr : β ≤ max α₀ (max v x)
    · rw [if_pos hbr]
      have hβv' : β ≤ max v x := by
        rcases le_max_iff.1 hbr with h | h
        · exact absurd (lt_of_le_of_lt (le_max_left α₀ v) hvβ) (not_lt.2 h)
        · exact h
      constructor
      · exact le_trans (min_le_left _ _) hβv'
      · apply max_le
        · exact le_max_of_le_right (le_trans (hvw.trans hwM) le_rfl)
        · refine le_trans hx2 (max_le ?_ ?_)
          · exact max_le (le_max_left _ _)
              (le_max_of_le_right (hvw.trans hwM))
          · exact le_max_of_le_right ((le_max_right v gm).trans hwM)
    · rw [if_neg hbr]
      have hv'β : max α₀ (max v x) < β := not_le.1 hbr
      have hgmx : gm ≤ x := by
        rcases min_le_iff.1 hx1 with h | h
        · exact absurd (lt_of_le_of_lt
            (h.trans ((le_max_right v x).trans (le_max_right α₀ _))) hv'β)
            (lt_irrefl β)
        · exact h
      have hwv' : max v gm ≤ max v x := max_le_max le_rfl hgmx
      obtain ⟨ih1, ih2⟩ := ih (max v x) hv'β
      constructor
      · exact le_trans
          (min_le_min le_rfl (mmMaxLoop_mono g board ms hwv')) ih1
      · refine le_trans ih2 ?_
        have hsub : mmMaxLoop g board ms (max v x) ≤
            max α₀ (mmMaxLoop g board ms (max v gm)) := by
          rw [mmMaxLoop_eq_max_bot g board ms (max v x),
            mmMaxLoop_eq_max_bot g board ms (max v gm)]
          apply max_le
          · apply max_le
            · exact le_max_of_le_right
                ((le_max_left v gm).trans (le_max_left _ _))
            · refine le_trans hx2 (max_le ?_ ?_)
              · apply max_le
                · exact le_max_left _ _
                · exact le_max_of_le_right
                    ((le_max_left v gm).trans (le_max_left _ _))
              · exact le_max_of_le_right
                  ((le_max_right v gm).trans (le_max_left _ _))
          · exact le_max_of_le_right (le_max_right _ _)
        exact max_le (le_max_left _ _) hsub

lemma abMinLoop_bounds (g : Board → EVal) (f : Board → EVal → EVal → EVal)
    (board : Board) (α₀ β₀ : EVal)
    (hIH : ∀ b bt, α₀ < bt → min bt (g b) ≤ f b α₀ bt ∧ f b α₀ bt ≤ max α₀ (g b)) :
    ∀ (ms : List Nat) (v : EVal), α₀ < min β₀ v →
      min β₀ (mmMinLoop g board ms v) ≤ abMinLoop f board ms v α₀ (min β₀ v) ∧
      abMinLoop f board ms v α₀ (min β₀ v) ≤ max α₀ (mmMinLoop g board ms v) := by
  intro ms
  induction ms with
  | nil =>
    intro v _
    rw [mmMinLoop_nil, abMinLoop_nil]
    exact ⟨min_le_right _ _, le_max_right _ _⟩
  | cons m ms ih =>
    intro v hvα
    set x := f (make_move board m (-1)) α₀ (min β₀ v) with hx
    set gm := g (make_move board m (-1)) with hgm
    obtain ⟨hx1, hx2⟩ := hIH (make_move board m (-1)) (min β₀ v) hvα
    rw [abMinLoop_cons, mmMinLoop_cons, ← hx, ← hgm]
    have hkey : min (min β₀ v) (min v x) = min β₀ (min v x) := by
      rw [min_assoc]
      congr 1
      rw [← min_assoc, min_self]
    rw [hkey]
    have hvw : min v gm ≤ v := min_le_left _ _
    have hwM : mmMinLoop g board ms (min v gm) ≤ min v gm := mmMinLoop_le _ _ _ _
    by_cases hbr : min β₀ (min v x) ≤ α₀
    · rw [if_pos hbr]
      have hβv' : min v x ≤ α₀ := by
        rcases min_le_iff.1 hbr with h | h
        · exact absurd (lt_of_lt_of_le hvα (min_le_left β₀ v))
            (not_lt.2 h)
        · exact h
      constructor
      · apply le_min
        · exact min_le_of_right_le (hwM.trans hvw)
        · refine le_trans (le_min (le_min (min_le_left _ _)
            (min_le_of_right_le (hwM.trans hvw)))
            (min_le_of_right_le (hwM.trans (min_le_right v gm)))) hx1
      · exact le_trans hβv' (le_max_left _ _)
    · rw [if_neg hbr]
      have hv'α : α₀ < min β₀ (min v x) := not_le.1 hbr
      have hgmx : x ≤ gm := by
        rcases le_max_iff.1 hx2 with h | h
        · exact absurd (lt_of_lt_of_le hv'α
            ((min_le_right β₀ _).trans ((min_le_right v x).trans h)))
            (lt_irrefl α₀)
        · exact h
      have hwv' : min v x ≤ min v gm := min_le_min le_rfl hgmx
      obtain ⟨ih1, ih2⟩ := ih (min v x) hv'α
      constructor
      · refine le_trans ?_ ih1
        have hsub : min β₀ (mmMinLoop g board ms (min v gm)) ≤
            mmMinLoop g board ms (min v x) := by
          rw [mmMinLoop_eq_min_top g board ms (min v x),
            mmMinLoop_eq_min_top g board ms (min v gm)]
          apply le_min
          · apply le_min
            · exact min_le_of_right_le
                ((min_le_left _ _).trans (min_le_left v gm))
            · refine le_trans (le_min ?_ ?_) hx1
              · apply le_min
                · exact min_le_left _ _
                · exact min_le_of_right_le
                    ((min_le_left _ _).trans (min_le_left v gm))
              · exact min_le_of_right_le
                  ((min_le_left _ _).trans (min_le_right v gm))
          · exact min_le_of_right_le (min_le_right _ _)
        exact le_min (min_le_left _ _) hsub
      · exact le_trans ih2
          (max_le_max le_rfl (mmMinLoop_mono g board ms hwv'))

/-- Knuth–Moore fail-soft bounds: for any window `α < β`, the alpha-beta
value is squeezed between `min β` and `max α` of the minimax value. -/
lemma abGo_bounds : ∀ (r : Nat) (board : Board) (depth : Nat) (α β : EVal),
    α < β →
    min β (minimaxGo r board depth) ≤ alphabetaGo r board depth α β ∧
    alphabetaGo r board depth α β ≤ max α (minimaxGo r board depth) := by
  intro r
  induction r with
  | zero =>
    intro board depth α β _
    exact ⟨min_le_right _ _, le_max_right _ _⟩
  | succ n ih =>
    intro board depth α β hαβ
    by_cases hs : evaluate board ≠ 0
    · simp only [minimaxGo, alphabetaGo, if_pos hs]
      exact ⟨min_le_right _ _, le_max_right _ _⟩
    · by_cases hp : depth % 2 = 0
      · simp only [minimaxGo, alphabetaGo, if_neg hs, if_pos hp]
        have hmax : max α NEG_INF = α := max_eq_left bot_le
        have h := abMaxLoop_bounds (fun b => minimaxGo n b (depth + 1))
          (fun b a bt => alphabetaGo n b (depth + 1) a bt) board β α
          (fun b a ha => ih b (depth + 1) a β ha)
          (get_valid_moves board depth) NEG_INF (by rw [hmax]; exact hαβ)
        rwa [hmax] at h
      · simp only [minimaxGo, alphabetaGo, if_neg hs, if_neg hp]
        have hmin : min β POS_INF = β := min_eq_left le_top
        have h := abMinLoop_bounds (fun b => minimaxGo n b (depth + 1))
          (fun b a bt => alphabetaGo n b (depth + 1) a bt) board α β
          (fun b bt hb => ih b (depth + 1) α bt hb)
          (get_valid_moves board depth) POS_INF (by rw [hmin]; exact hαβ)
        rwa [hmin] at h

/-- C1: for every board, every depth limit and every current depth, the
scalar value of `minimax` equals that of `alphabeta` run with the full
window `(-∞, +∞)`. -/
theorem minimax_eq_alphabeta_full_window (maxD : Nat) (board : Board)
    (depth : Nat) :
    minimax maxD board depth = alphabeta maxD board depth NEG_INF POS_INF := by
  obtain ⟨h1, h2⟩ := abGo_bounds (maxD - depth) board depth NEG_INF POS_INF
    (by rw [neg_inf_bot, pos_inf_top]; exact bot_lt_top)
  rw [pos_inf_top, min_eq_right le_top] at h1
  rw [neg_inf_bot, max_eq_right bot_le] at h2
  exact le_antisymm h1 h2

/-! ### Cell-level lemmas for `set_cell` / `make_move` -/

lemma getD_set_self {α : Type} (l : List α) (i : Nat) (a d : α)
    (h : i < l.length) : (l.set i a).getD i d = a := by
  induction l generalizing i with
  | nil => simp at h
  | cons x l ih =>
    cases i with
    | zero => rfl
    | succ i =>
      simp only [List.set_cons_succ, List.getD_cons_succ]
      exact ih i (by simpa using h)

lemma getD_set_ne {α : Type} (l : List α) (i j : Nat) (a d : α)
    (h : i ≠ j) : (l.set i a).getD j d = l.getD j d := by
  induction l generalizing i j with
  | nil => simp [List.set]
  | cons x l ih =>
    cases i with
    | zero =>
      cases j with
      | zero => exact absurd rfl h
      | succ j => rfl
    | succ i =>
      cases j with
      | zero => rfl
      | succ j =>
        simp only [List.set_cons_succ, List.getD_cons_succ]
        exact ih i j (fun hij => h (by rw [hij]))

lemma getD_mem {α : Type} (l : List α) (i : Nat) (d : α)
    (h : i < l.length) : l.getD i d ∈ l := by
  induction l generalizing i with
  | nil => simp at h
  | cons x l ih =>
    cases i with
    | zero => exact List.mem_cons_self x l
    | succ i =>
      simp only [List.getD_cons_succ]
      exact List.mem_cons_of_mem x (ih i (by simpa using h))

/-- A board as the program manipulates it: 6 rows of 7 cells. -/
def WF (board : Board) : Prop :=
  board.length = ROWS ∧ ∀ row ∈ board, row.length = COLUMNS

lemma cell_set_cell (board : Board) (r c : Nat) (v : Int)
    (hr : r < board.length) (hc : c < (board.getD r []).length)
    (r' c' : Nat) :
    cell (set_cell board r c v) r' c' =
      if r' = r ∧ c' = c then v else cell board r' c' := by
  unfold cell set_cell
  by_cases hrr : r' = r
  · subst hrr
    rw [getD_set_self board r' _ [] hr]
    by_cases hcc : c' = c
    · subst hcc
      rw [getD_set_self _ c' v 0 hc, if_pos ⟨rfl, rfl⟩]
    · rw [getD_set_ne _ c c' v 0 (fun h => hcc h.symm),
        if_neg (fun h => hcc h.2)]
  · rw [getD_set_ne board r r' _ [] (fun h => hrr h.symm),
      if_neg (fun h => hrr h.1)]

lemma drop_branch_spec (board : Board) (col : Nat) (player : Int) (r0 : Nat)
    (hwf : WF board) (hcol : col < COLUMNS) (hr0 : r0 < ROWS) :
    cell (set_cell board r0 col player) r0 col = player ∧
    ∀ r c, ¬(r = r0 ∧ c = col) →
      cell (set_cell board r0 col player) r c = cell board r c := by
  obtain ⟨hlen, hrows⟩ := hwf
  have hr : r0 < board.length := by rw [hlen]; exact hr0
  have hc : col < (board.getD r0 []).length := by
    rw [hrows _ (getD_mem board r0 [] hr)]; exact hcol
  constructor
  · rw [cell_set_cell board r0 col player hr hc, if_pos ⟨rfl, rfl⟩]
  · intro r c hne
    rw [cell_set_cell board r0 col player hr hc, if_neg hne]

lemma range_rows_reverse : (List.range ROWS).reverse = [5, 4, 3, 2, 1, 0] := by
  decide

/-- C7: on a well-formed board, a `make_move` into a non-full valid column
writes `player` into the lowest empty cell of that column and changes no
other cell (the model is functional, so the input board itself is a value
that cannot be mutated). -/
theorem make_move_frame (board : Board) (col : Nat) (player : Int)
    (hwf : WF board) (hcol : col < COLUMNS)
    (hne : ∃ r, r < ROWS ∧ cell board r col = 0) :
    ∃ r0, r0 < ROWS ∧ cell board r0 col = 0 ∧
      (∀ r, r0 < r → r < ROWS → cell board r col ≠ 0) ∧
      cell (make_move board col player) r0 col = player ∧
      (∀ r c, ¬(r = r0 ∧ c = col) →
        cell (make_move board col player) r c = cell board r c) := by
  have hR6 : ROWS = 6 := rfl
  rw [hR6] at hne ⊢
  rw [make_move, range_rows_reverse]
  simp only [dropLoop]
  by_cases h5 : cell board 5 col = 0
  · rw [if_pos h5]
    obtain ⟨hw, hf⟩ := drop_branch_spec board col player 5 hwf hcol (by decide)
    exact ⟨5, by omega, h5, fun r h1 h2 => by omega, hw, hf⟩
  · rw [if_neg h5]
    by_cases h4 : cell board 4 col = 0
    · rw [if_pos h4]
      obtain ⟨hw, hf⟩ := drop_branch_spec board col player 4 hwf hcol (by decide)
      refine ⟨4, by omega, h4, ?_, hw, hf⟩
      intro r h1 h2; interval_cases r; exact h5
    · rw [if_neg h4]
      by_cases h3 : cell board 3 col = 0
      · rw [if_pos h3]
        obtain ⟨hw, hf⟩ := drop_branch_spec board col player 3 hwf hcol (by decide)
        refine ⟨3, by omega, h3, ?_, hw, hf⟩
        intro r h1 h2; interval_cases r
        · exact h4
        · exact h5
      · rw [if_neg h3]
        by_cases h2 : cell board 2 col = 0
        · rw [if_pos h2]
          obtain ⟨hw, hf⟩ := drop_branch_spec board col player 2 hwf hcol (by decide)
          refine ⟨2, by omega, h2, ?_, hw, hf⟩
          intro r hr1 hr2; interval_cases r
          · exact h3
          · exact h4
          · exact h5
        · rw [if_neg h2]
          by_cases h1 : cell board 1 col = 0
          · rw [if_pos h1]
            obtain ⟨hw, hf⟩ := drop_branch_spec board col player 1 hwf hcol (by decide)
            refine ⟨1, by omega, h1, ?_, hw, hf⟩
            intro r hr1 hr2; interval_cases r
            · exact h2
            · exact h3
            · exact h4
            · exact h5
          · rw [if_neg h1]
            by_cases h0 : cell board 0 col = 0
            · rw [if_pos h0]
              obtain ⟨hw, hf⟩ := drop_branch_spec board col player 0 hwf hcol (by decide)
              refine ⟨0, by omega, h0, ?_, hw, hf⟩
              intro r hr1 hr2; interval_cases r
              · exact h1
              · exact h2
              · exact h3
              · exact h4
              · exact h5
            · exfalso
              obtain ⟨r, hr, hcell⟩ := hne
              interval_cases r
              · exact h0 hcell
              · exact h1 hcell
              · exact h2 hcell
              · exact h3 hcell
              · exact h4 hcell
              · exact h5 hcell

/-- C7 witness. -/
theorem make_move_frame_witness :
    ∃ r0, r0 < ROWS ∧ cell create_initial_board r0 0 = 0 ∧
      (∀ r, r0 < r → r < ROWS → cell create_initial_board r 0 ≠ 0) ∧
      cell (make_move create_initial_board 0 1) r0 0 = 1 ∧
      (∀ r c, ¬(r = r0 ∧ c = 0) →
        cell (make_move create_initial_board 0 1) r c =
          cell create_initial_board r c) :=
  make_move_frame create_initial_board 0 1
    (by constructor
        · decide
        · decide)
    (by decide) ⟨2, by decide, by decide⟩

/-- C8: `make_move` into a full column returns the board unchanged
(the function is total: there is no fault path). -/
theorem make_move_full_noop (board : Board) (col : Nat) (player : Int)
    (hfull : ∀ r, r < ROWS → cell board r col ≠ 0) :
    make_move board col player = board := by
  rw [make_move, range_rows_reverse]
  simp only [dropLoop]
  rw [if_neg (hfull 5 (by decide)), if_neg (hfull 4 (by decide)),
    if_neg (hfull 3 (by decide)), if_neg (hfull 2 (by decide)),
    if_neg (hfull 1 (by decide)), if_neg (hfull 0 (by decide))]

/-- C8 witness: a board whose column 0 is completely full. -/
theorem make_move_full_noop_witness :
    make_move (List.replicate 6 [1, 1, 1, 1, 1, 1, 1]) 0 (-1) =
      List.replicate 6 [1, 1, 1, 1, 1, 1, 1] :=
  make_move_full_noop _ 0 (-1) (by decide)

/-! ### The move generator -/

lemma foldl_append_filter (p : Nat → Prop) [DecidablePred p] :
    ∀ (cols acc : List Nat),
      cols.foldl (fun valid c => if p c then valid ++ [c] else valid) acc =
        acc ++ cols.filter (fun c => decide (p c)) := by
  intro cols
  induction cols with
  | nil => intro acc; simp
  | cons c cols ih =>
    intro acc
    rw [List.foldl_cons, ih, List.filter_cons]
    by_cases hc : p c
    · simp [hc]
    · simp [hc]

lemma get_valid_moves_eq_filter (board : Board) (depth : Nat) :
    get_valid_moves board depth =
      [0, 1, 2].filter (fun c => decide (cell board 0 c = 0)) := by
  rw [get_valid_moves]
  exact foldl_append_filter (fun c => cell board 0 c = 0) [0, 1, 2] []

/-- C9: the legal moves are exactly the columns below 3 whose top cell is
empty, listed in ascending order; columns 3–6 never appear. -/
theorem get_valid_moves_spec (board : Board) (depth : Nat) :
    (∀ c, c ∈ get_valid_moves board depth ↔ (c < 3 ∧ cell board 0 c = 0)) ∧
    List.Sorted (· < ·) (get_valid_moves board depth) := by
  rw [get_valid_moves_eq_filter]
  constructor
  · intro c
    rw [List.mem_filter]
    simp only [decide_eq_true_eq]
    constructor
    · rintro ⟨hm, hc⟩
      refine ⟨?_, hc⟩
      simp only [List.mem_cons, List.not_mem_nil, or_false] at hm
      rcases hm with h | h | h
      · omega
      · omega
      · omega
    · rintro ⟨hlt, hc⟩
      refine ⟨?_, hc⟩
      interval_cases c
      · exact List.mem_cons_self _ _
      · exact List.mem_cons_of_mem _ (List.mem_cons_self _ _)
      · exact List.mem_cons_of_mem _ (List.mem_cons_of_mem _ (List.mem_cons_self _ _))
  · exact List.Pairwise.sublist (List.filter_sublist _) (by decide)

/-- C9 witness. -/
theorem get_valid_moves_spec_witness :
    (2 ∈ get_valid_moves create_initial_board 0 ↔
      (2 < 3 ∧ cell create_initial_board 0 2 = 0)) ∧
    List.Sorted (· < ·) (get_valid_moves create_initial_board 0) :=
  ⟨(get_valid_moves_spec create_initial_board 0).1 2,
    (get_valid_moves_spec create_initial_board 0).2⟩

/-- C10: the move generator ignores its depth argument entirely, so MAX
nodes and MIN nodes see the same moves on the same board. -/
theorem get_valid_moves_depth_independent (board : Board) (d1 d2 : Nat) :
    get_valid_moves board d1 = get_valid_moves board d2 := rfl

/-! ### The terminal rule (C3) -/

lemma concat_getLast? {α : Type} (l : List α) (a : α) :
    (l ++ [a]).getLast? = some a := by
  rw [List.getLast?_append_cons]
  rfl

/-- C3: for depths up to the limit, a node is treated as terminal exactly
when the depth limit is reached or the static evaluation is non-zero; a
terminal node returns `evaluate board` from `minimax`, `alphabeta` and both
collectors without producing any child record, and a non-terminal node's
own record is a MAX/MIN record listing its legal moves. -/
theorem terminal_rule (maxD : Nat) (board : Board) (depth : Nat)
    (path : List Nat) (α β : EVal) (hd : depth ≤ maxD) :
    ((depth = maxD ∨ evaluate board ≠ 0) →
      minimax maxD board depth = ival (evaluate board) ∧
      alphabeta maxD board depth α β = ival (evaluate board) ∧
      (collectGo (maxD - depth) board depth path).1 =
        [{ path := path, value := ival (evaluate board), type := .terminal,
           depth := depth }] ∧
      (abCollectGo (maxD - depth) board depth path α β).1 =
        [{ path := path, value := ival (evaluate board), type := .terminal,
           depth := depth, alpha := α, beta := β }]) ∧
    (¬(depth = maxD ∨ evaluate board ≠ 0) →
      ∃ rec, ((collectGo (maxD - depth) board depth path).1).getLast? = some rec ∧
        rec.type = (if depth % 2 = 0 then NodeType.max else NodeType.min) ∧
        rec.moves = get_valid_moves board depth) := by
  constructor
  · intro h
    cases hr : maxD - depth with
    | zero =>
      rw [minimax, alphabeta, hr]
      exact ⟨rfl, rfl, rfl, rfl⟩
    | succ k =>
      have he : evaluate board ≠ 0 := by
        rcases h with h | h
        · omega
        · exact h
      rw [minimax, alphabeta, hr]
      simp only [minimaxGo, alphabetaGo, collectGo, abCollectGo, if_pos he]
      exact ⟨trivial, trivial, trivial, trivial⟩
  · intro h
    push_neg at h
    obtain ⟨hne, he⟩ := h
    obtain ⟨k, hk⟩ : ∃ k, maxD - depth = k + 1 := ⟨maxD - depth - 1, by omega⟩
    rw [hk]
    have he' : ¬(evaluate board ≠ 0) := fun hx => hx he
    by_cases hp : depth % 2 = 0
    · simp only [collectGo, if_neg he', if_pos hp]
      exact ⟨_, concat_getLast? _ _, rfl, rfl⟩
    · simp only [collectGo, if_neg he', if_neg hp]
      exact ⟨_, concat_getLast? _ _, rfl, rfl⟩

/-! ### Window traces for the alpha-beta recursion (C5) -/

/-- MAX loop of `alphabeta` instrumented to also return the list of
`(alpha, beta)` windows received by every recursive call made in the
subtree; control flow (updates, cutoff, break) is identical to
`abMaxLoop`. -/
def awMaxLoop (f : Board → EVal → EVal → List (EVal × EVal) × EVal)
    (board : Board) : List Nat → EVal → EVal → EVal → List (EVal × EVal) × EVal
  | [], value, _, _ => ([], value)
  | m :: ms, value, alpha, beta =>
    let p := f (make_move board m 1) alpha beta
    let value' := if value < p.2 then p.2 else value
    let alpha' := if alpha < value' then value' else alpha
    if beta ≤ alpha' then (p.1, value')
    else
      let q := awMaxLoop f board ms value' alpha' beta
      (p.1 ++ q.1, q.2)

/-- MIN loop of `alphabeta` instrumented with window traces. -/
def awMinLoop (f : Board → EVal → EVal → List (EVal × EVal) × EVal)
    (board : Board) : List Nat → EVal → EVal → EVal → List (EVal × EVal) × EVal
  | [], value, _, _ => ([], value)
  | m :: ms, value, alpha, beta =>
    let p := f (make_move board m (-1)) alpha beta
    let value' := if p.2 < value then p.2 else value
    let beta' := if value' < beta then value' else beta
    if beta' ≤ alpha then (p.1, value')
    else
      let q := awMinLoop f board ms value' alpha beta'
      (p.1 ++ q.1, q.2)

/-- Function `alphabeta` instrumented to return the windows received by every call
in the tree (its own incoming window first), alongside its value. -/
def abWindows : Nat → Board → Nat → EVal → EVal → List (EVal × EVal) × EVal
  | 0, board, _, alpha, beta => ([(alpha, beta)], ival (evaluate board))
  | remaining + 1, board, depth, alpha, beta =>
    let score_win := evaluate board
    if score_win ≠ 0 then ([(alpha, beta)], ival score_win)
    else if depth % 2 = 0 then
      let q := awMaxLoop (fun b a bt => abWindows remaining b (depth + 1) a bt)
        board (get_valid_moves board depth) NEG_INF alpha beta
      ((alpha, beta) :: q.1, q.2)
    else
      let q := awMinLoop (fun b a bt => abWindows remaining b (depth + 1) a bt)
        board (get_valid_moves board depth) POS_INF alpha beta
      ((alpha, beta) :: q.1, q.2)

lemma awMaxLoop_cons (f : Board → EVal → EVal → List (EVal × EVal) × EVal)
    (board : Board) (m : Nat) (ms : List Nat) (v a bt : EVal) :
    awMaxLoop f board (m :: ms) v a bt =
      (if bt ≤ max a (max v (f (make_move board m 1) a bt).2) then
        ((f (make_move board m 1) a bt).1, max v (f (make_move board m 1) a bt).2)
      else
        ((f (make_move board m 1) a bt).1 ++
          (awMaxLoop f board ms (max v (f (make_move board m 1) a bt).2)
            (max a (max v (f (make_move board m 1) a bt).2)) bt).1,
          (awMaxLoop f board ms (max v (f (make_move board m 1) a bt).2)
            (max a (max v (f (make_move board m 1) a bt).2)) bt).2)) := by
  simp only [awMaxLoop, ite_lt_max]

lemma awMinLoop_cons (f : Board → EVal → EVal → List (EVal × EVal) × EVal)
    (board : Board) (m : Nat) (ms : List Nat) (v a bt : EVal) :
    awMinLoop f board (m :: ms) v a bt =
      (if min bt (min v (f (make_move board m (-1)) a bt).2) ≤ a then
        ((f (make_move board m (-1)) a bt).1, min v (f (make_move board m (-1)) a bt).2)
      else
        ((f (make_move board m (-1)) a bt).1 ++
          (awMinLoop f board ms (min v (f (make_move board m (-1)) a bt).2) a
            (min bt (min v (f (make_move board m (-1)) a bt).2))).1,
          (awMinLoop f board ms (min v (f (make_move board m (-1)) a bt).2) a
            (min bt (min v (f (make_move board m (-1)) a bt).2))).2)) := by
  simp only [awMinLoop, ite_lt_min]

lemma awMaxLoop_val (f : Board → EVal → EVal → List (EVal × EVal) × EVal)
    (g : Board → EVal → EVal → EVal) (board : Board)
    (hf : ∀ b a bt, (f b a bt).2 = g b a bt) :
    ∀ (ms : List Nat) (v a bt : EVal),
      (awMaxLoop f board ms v a bt).2 = abMaxLoop g board ms v a bt := by
  intro ms
  induction ms with
  | nil => intro v a bt; rfl
  | cons m ms ih =>
    intro v a bt
    rw [awMaxLoop_cons, abMaxLoop_cons, hf]
    split_ifs
    · rfl
    · exact ih _ _ _

lemma awMinLoop_val (f : Board → EVal → EVal → List (EVal × EVal) × EVal)
    (g : Board → EVal → EVal → EVal) (board : Board)
    (hf : ∀ b a bt, (f b a bt).2 = g b a bt) :
    ∀ (ms : List Nat) (v a bt : EVal),
      (awMinLoop f board ms v a bt).2 = abMinLoop g board ms v a bt := by
  intro ms
  induction ms with
  | nil => intro v a bt; rfl
  | cons m ms ih =>
    intro v a bt
    rw [awMinLoop_cons, abMinLoop_cons, hf]
    split_ifs
    · rfl
    · exact ih _ _ _

lemma abWindows_val : ∀ (r : Nat) (board : Board) (depth : Nat) (α β : EVal),
    (abWindows r board depth α β).2 = alphabetaGo r board depth α β := by
  intro r
  induction r with
  | zero => intro board depth α β; rfl
  | succ n ih =>
    intro board depth α β
    by_cases hs : evaluate board ≠ 0
    · simp only [abWindows, alphabetaGo, if_pos hs]
    · by_cases hp : depth % 2 = 0
      · simp only [abWindows, alphabetaGo, if_neg hs, if_pos hp]
        exact awMaxLoop_val _ _ board (fun b a bt => ih b (depth + 1) a bt) _ _ _ _
      · simp only [abWindows, alphabetaGo, if_neg hs, if_neg hp]
        exact awMinLoop_val _ _ board (fun b a bt => ih b (depth + 1) a bt) _ _ _ _

lemma awMaxLoop_windows (f : Board → EVal → EVal → List (EVal × EVal) × EVal)
    (board : Board) (β : EVal)
    (hf : ∀ b a, a < β → ∀ w ∈ (f b a β).1, w.1 < w.2) :
    ∀ (ms : List Nat) (v a : EVal), a < β →
      ∀ w ∈ (awMaxLoop f board ms v a β).1, w.1 < w.2 := by
  intro ms
  induction ms with
  | nil =>
    intro v a _ w hw
    exact absurd hw (List.not_mem_nil w)
  | cons m ms ih =>
    intro v a ha w hw
    rw [awMaxLoop_cons] at hw
    by_cases hbr : β ≤ max a (max v (f (make_move board m 1) a β).2)
    · rw [if_pos hbr] at hw
      exact hf _ a ha w hw
    · rw [if_neg hbr] at hw
      rcases List.mem_append.1 hw with h | h
      · exact hf _ a ha w h
      · exact ih _ _ (not_le.1 hbr) w h

lemma awMinLoop_windows (f : Board → EVal → EVal → List (EVal × EVal) × EVal)
    (board : Board) (α : EVal)
    (hf : ∀ b bt, α < bt → ∀ w ∈ (f b α bt).1, w.1 < w.2) :
    ∀ (ms : List Nat) (v bt : EVal), α < bt →
      ∀ w ∈ (awMinLoop f board ms v α bt).1, w.1 < w.2 := by
  intro ms
  induction ms with
  | nil =>
    intro v bt _ w hw
    exact absurd hw (List.not_mem_nil w)
  | cons m ms ih =>
    intro v bt hb w hw
    rw [awMinLoop_cons] at hw
    by_cases hbr : min bt (min v (f (make_move board m (-1)) α bt).2) ≤ α
    · rw [if_pos hbr] at hw
      exact hf _ bt hb w hw
    · rw [if_neg hbr] at hw
      rcases List.mem_append.1 hw with h | h
      · exact hf _ bt hb w h
      · exact ih _ _ (not_le.1 hbr) w h

lemma abWindows_lt : ∀ (r : Nat) (board : Board) (depth : Nat) (α β : EVal),
    α < β → ∀ w ∈ (abWindows r board depth α β).1, w.1 < w.2 := by
  intro r
  induction r with
  | zero =>
    intro board depth α β hαβ w hw
    rw [List.mem_singleton.1 hw]
    exact hαβ
  | succ n ih =>
    intro board depth α β hαβ w hw
    by_cases hs : evaluate board ≠ 0
    · simp only [abWindows, if_pos hs] at hw
      rw [List.mem_singleton.1 hw]
      exact hαβ
    · by_cases hp : depth % 2 = 0
      · simp only [abWindows, if_neg hs, if_pos hp] at hw
        rcases List.mem_cons.1 hw with h | h
        · rw [h]; exact hαβ
        · exact awMaxLoop_windows _ board β
            (fun b a ha => ih b (depth + 1) a β ha) _ NEG_INF α hαβ w h
      · simp only [abWindows, if_neg hs, if_neg hp] at hw
        rcases List.mem_cons.1 hw with h | h
        · rw [h]; exact hαβ
        · exact awMinLoop_windows _ board α
            (fun b bt hb => ih b (depth + 1) α bt hb) _ POS_INF β hαβ w h

/-- C5: (1) the window-instrumented search computes the same value as
`alphabeta`; (2) starting from any window with `alpha < beta` (in
particular the root's `(-∞, +∞)`), every call in the tree receives a
window with `alpha < beta`; (3,4) once a node's updated window satisfies
`alpha ≥ beta` after a child, the remaining moves of that node are not
explored: the loop's result (calls traced and value) is exactly that of
the loop stopped at that child. -/
theorem window_validity :
    (∀ (r : Nat) (board : Board) (depth : Nat) (α β : EVal),
      (abWindows r board depth α β).2 = alphabetaGo r board depth α β) ∧
    (∀ (r : Nat) (board : Board) (depth : Nat) (α β : EVal), α < β →
      ∀ w ∈ (abWindows r board depth α β).1, w.1 < w.2) ∧
    (∀ (f : Board → EVal → EVal → List (EVal × EVal) × EVal) (board : Board)
      (m : Nat) (ms : List Nat) (v a β : EVal),
      β ≤ max a (max v (f (make_move board m 1) a β).2) →
      awMaxLoop f board (m :: ms) v a β = awMaxLoop f board [m] v a β) ∧
    (∀ (f : Board → EVal → EVal → List (EVal × EVal) × EVal) (board : Board)
      (m : Nat) (ms : List Nat) (v α b : EVal),
      min b (min v (f (make_move board m (-1)) α b).2) ≤ α →
      awMinLoop f board (m :: ms) v α b = awMinLoop f board [m] v α b) := by
  refine ⟨abWindows_val, abWindows_lt, ?_, ?_⟩
  · intro f board m ms v a β hcut
    rw [awMaxLoop_cons, awMaxLoop_cons, if_pos hcut, if_pos hcut]
  · intro f board m ms v α b hcut
    rw [awMinLoop_cons, awMinLoop_cons, if_pos hcut, if_pos hcut]

/-- C5 witness. -/
theorem window_validity_witness :
    ((abWindows 3 create_initial_board 0 NEG_INF POS_INF).2 =
      alphabetaGo 3 create_initial_board 0 NEG_INF POS_INF) ∧
    ((NEG_INF, POS_INF).1 < ((NEG_INF : EVal), POS_INF).2) ∧
    (awMaxLoop (fun _ _ _ => ([], ival 0)) create_initial_board [0, 1]
      (ival 0) (ival 5) (ival 3) =
      awMaxLoop (fun _ _ _ => ([], ival 0)) create_initial_board [0]
      (ival 0) (ival 5) (ival 3)) ∧
    (awMinLoop (fun _ _ _ => ([], ival 0)) create_initial_board [0, 1]
      (ival 0) (ival 5) (ival 3) =
      awMinLoop (fun _ _ _ => ([], ival 0)) create_initial_board [0]
      (ival 0) (ival 5) (ival 3)) :=
  ⟨window_validity.1 3 create_initial_board 0 NEG_INF POS_INF,
    window_validity.2.1 3 create_initial_board 0 NEG_INF POS_INF
      (by decide) (NEG_INF, POS_INF)
      (by rw [abWindows]; exact List.mem_cons_self _ _),
    window_validity.2.2.1 _ create_initial_board 0 [1] (ival 0) (ival 5)
      (ival 3) (by decide),
    window_validity.2.2.2 _ create_initial_board 0 [1] (ival 0) (ival 5)
      (ival 3) (by decide)⟩

/-! ### Aggregation invariants of the collected records (C4) -/

/-- Replay a path of moves from a board, the mover alternating with depth
parity exactly as the search does (`+1` at even depth, `-1` at odd). -/
def play (board : Board) : Nat → List Nat → Board
  | _, [] => board
  | depth, m :: ms =>
    play (make_move board m (if depth % 2 = 0 then 1 else -1)) (depth + 1) ms

lemma play_snoc : ∀ (path : List Nat) (b0 : Board) (d m : Nat),
    play b0 d (path ++ [m]) =
      make_move (play b0 d path) m
        (if (d + path.length) % 2 = 0 then 1 else -1) := by
  intro path
  induction path with
  | nil =>
    intro b0 d m
    simp [play]
  | cons a p ih =>
    intro b0 d m
    simp only [List.cons_append, play, List.append_eq]
    rw [ih]
    have harith : d + 1 + p.length = d + (a :: p).length := by
      simp [List.length_cons]
      omega
    rw [harith]

lemma foldl_max_spec : ∀ (l : List EVal) (v : EVal),
    l.foldl max v ∈ v :: l ∧ ∀ x ∈ v :: l, x ≤ l.foldl max v := by
  intro l
  induction l with
  | nil =>
    intro v
    refine ⟨List.mem_cons_self _ _, ?_⟩
    intro x hx
    rw [List.mem_singleton.1 hx]
    exact le_rfl
  | cons a l ih =>
    intro v
    rw [List.foldl_cons]
    obtain ⟨hmem, hbd⟩ := ih (max v a)
    constructor
    · rcases List.mem_cons.1 hmem with h | h
      · rcases max_choice v a with hc | hc
        · rw [h, hc]; exact List.mem_cons_self _ _
        · rw [h, hc]; exact List.mem_cons_of_mem _ (List.mem_cons_self _ _)
      · exact List.mem_cons_of_mem _ (List.mem_cons_of_mem _ h)
    · intro x hx
      rcases List.mem_cons.1 hx with h | h
      · rw [h]
        exact le_trans (le_max_left v a) (hbd _ (List.mem_cons_self _ _))
      · rcases List.mem_cons.1 h with h' | h'
        · rw [h']
          exact le_trans (le_max_right v a) (hbd _ (List.mem_cons_self _ _))
        · exact hbd x (List.mem_cons_of_mem _ h')

lemma foldl_min_spec : ∀ (l : List EVal) (v : EVal),
    l.foldl min v ∈ v :: l ∧ ∀ x ∈ v :: l, l.foldl min v ≤ x := by
  intro l
  induction l with
  | nil =>
    intro v
    refine ⟨List.mem_cons_self _ _, ?_⟩
    intro x hx
    rw [List.mem_singleton.1 hx]
    exact le_rfl
  | cons a l ih =>
    intro v
    rw [List.foldl_cons]
    obtain ⟨hmem, hbd⟩ := ih (min v a)
    constructor
    · rcases List.mem_cons.1 hmem with h | h
      · rcases min_choice v a with hc | hc
        · rw [h, hc]; exact List.mem_cons_self _ _
        · rw [h, hc]; exact List.mem_cons_of_mem _ (List.mem_cons_self _ _)
      · exact List.mem_cons_of_mem _ (List.mem_cons_of_mem _ h)
    · intro x hx
      rcases List.mem_cons.1 hx with h | h
      · rw [h]
        exact le_trans (hbd _ (List.mem_cons_self _ _)) (min_le_left v a)
      · rcases List.mem_cons.1 h with h' | h'
        · rw [h']
          exact le_trans (hbd _ (List.mem_cons_self _ _)) (min_le_right v a)
        · exact hbd x (List.mem_cons_of_mem _ h')

lemma foldl_max_bot_mem (l : List EVal) (hl : l ≠ []) :
    l.foldl max NEG_INF ∈ l ∧ ∀ x ∈ l, x ≤ l.foldl max NEG_INF := by
  obtain ⟨hmem, hbd⟩ := foldl_max_spec l NEG_INF
  refine ⟨?_, fun x hx => hbd x (List.mem_cons_of_mem _ hx)⟩
  rcases List.mem_cons.1 hmem with h | h
  · obtain ⟨x0, hx0⟩ := List.exists_mem_of_ne_nil l hl
    have hx0b : x0 ≤ NEG_INF := by
      rw [← h]
      exact hbd x0 (List.mem_cons_of_mem _ hx0)
    have hx0e : x0 = NEG_INF := le_bot_iff.1 hx0b
    rw [h, ← hx0e]
    exact hx0
  · exact h

lemma foldl_min_top_mem (l : List EVal) (hl : l ≠ []) :
    l.foldl min POS_INF ∈ l ∧ ∀ x ∈ l, l.foldl min POS_INF ≤ x := by
  obtain ⟨hmem, hbd⟩ := foldl_min_spec l POS_INF
  refine ⟨?_, fun x hx => hbd x (List.mem_cons_of_mem _ hx)⟩
  rcases List.mem_cons.1 hmem with h | h
  · obtain ⟨x0, hx0⟩ := List.exists_mem_of_ne_nil l hl
    have hx0b : POS_INF ≤ x0 := by
      rw [← h]
      exact hbd x0 (List.mem_cons_of_mem _ hx0)
    have hx0e : x0 = POS_INF := top_le_iff.1 hx0b
    rw [h, ← hx0e]
    exact hx0
  · exact h

lemma mcMaxLoop_value (f : Board → List Nat → List MNode × EVal)
    (board : Board) (path : List Nat) :
    ∀ (ms : List Nat) (v : EVal),
      (mcMaxLoop f board path ms v).2.2 =
        (mcMaxLoop f board path ms v).2.1.foldl max v := by
  intro ms
  induction ms with
  | nil => intro v; rfl
  | cons m ms ih =>
    intro v
    simp only [mcMaxLoop, ite_lt_max, List.foldl_cons]
    exact ih _

lemma mcMinLoop_value (f : Board → List Nat → List MNode × EVal)
    (board : Board) (path : List Nat) :
    ∀ (ms : List Nat) (v : EVal),
      (mcMinLoop f board path ms v).2.2 =
        (mcMinLoop f board path ms v).2.1.foldl min v := by
  intro ms
  induction ms with
  | nil => intro v; rfl
  | cons m ms ih =>
    intro v
    simp only [mcMinLoop, ite_lt_min, List.foldl_cons]
    exact ih _

lemma mcMaxLoop_mem (f : Board → List Nat → List MNode × EVal)
    (board : Board) (path : List Nat) :
    ∀ (ms : List Nat) (v : EVal) (rec : MNode),
      rec ∈ (mcMaxLoop f board path ms v).1 →
      ∃ m ∈ ms, rec ∈ (f (make_move board m 1) (path ++ [m])).1 := by
  intro ms
  induction ms with
  | nil =>
    intro v rec h
    exact absurd h (List.not_mem_nil rec)
  | cons m ms ih =>
    intro v rec h
    simp only [mcMaxLoop] at h
    rcases List.mem_append.1 h with h' | h'
    · exact ⟨m, List.mem_cons_self _ _, h'⟩
    · obtain ⟨m', hm', hr⟩ := ih _ rec h'
      exact ⟨m', List.mem_cons_of_mem _ hm', hr⟩

lemma mcMinLoop_mem (f : Board → List Nat → List MNode × EVal)
    (board : Board) (path : List Nat) :
    ∀ (ms : List Nat) (v : EVal) (rec : MNode),
      rec ∈ (mcMinLoop f board path ms v).1 →
      ∃ m ∈ ms, rec ∈ (f (make_move board m (-1)) (path ++ [m])).1 := by
  intro ms
  induction ms with
  | nil =>
    intro v rec h
    exact absurd h (List.not_mem_nil rec)
  | cons m ms ih =>
    intro v rec h
    simp only [mcMinLoop] at h
    rcases List.mem_append.1 h with h' | h'
    · exact ⟨m, List.mem_cons_self _ _, h'⟩
    · obtain ⟨m', hm', hr⟩ := ih _ rec h'
      exact ⟨m', List.mem_cons_of_mem _ hm', hr⟩

lemma acMaxLoop_value (f : Board → List Nat → EVal → EVal → List ABNode × EVal)
    (board : Board) (path : List Nat) :
    ∀ (ms : List Nat) (v a b : EVal),
      (acMaxLoop f board path ms v a b).value =
        (acMaxLoop f board path ms v a b).children_vals.foldl max v := by
  intro ms
  induction ms with
  | nil => intro v a b; rfl
  | cons m ms ih =>
    intro v a b
    simp only [acMaxLoop, ite_lt_max]
    split_ifs
    · rfl
    · simp only [List.foldl_cons]
      exact ih _ _ _

lemma acMinLoop_value (f : Board → List Nat → EVal → EVal → List ABNode × EVal)
    (board : Board) (path : List Nat) :
    ∀ (ms : List Nat) (v a b : EVal),
      (acMinLoop f board path ms v a b).value =
        (acMinLoop f board path ms v a b).children_vals.foldl min v := by
  intro ms
  induction ms with
  | nil => intro v a b; rfl
  | cons m ms ih =>
    intro v a b
    simp only [acMinLoop, ite_lt_min]
    split_ifs
    · rfl
    · simp only [List.foldl_cons]
      exact ih _ _ _

lemma acMaxLoop_mem (f : Board → List Nat → EVal → EVal → List ABNode × EVal)
    (board : Board) (path : List Nat) :
    ∀ (ms : List Nat) (v a b : EVal) (rec : ABNode),
      rec ∈ (acMaxLoop f board path ms v a b).nodes →
      ∃ m ∈ ms, ∃ a' b',
        rec ∈ (f (make_move board m 1) (path ++ [m]) a' b').1 := by
  intro ms
  induction ms with
  | nil =>
    intro v a b rec h
    exact absurd h (List.not_mem_nil rec)
  | cons m ms ih =>
    intro v a b rec h
    simp only [acMaxLoop, ite_lt_max] at h
    split_ifs at h
    · exact ⟨m, List.mem_cons_self _ _, a, b, h⟩
    · rcases List.mem_append.1 h with h' | h'
      · exact ⟨m, List.mem_cons_self _ _, a, b, h'⟩
      · obtain ⟨m', hm', a', b', hr⟩ := ih _ _ _ rec h'
        exact ⟨m', List.mem_cons_of_mem _ hm', a', b', hr⟩

lemma acMinLoop_mem (f : Board → List Nat → EVal → EVal → List ABNode × EVal)
    (board : Board) (path : List Nat) :
    ∀ (ms : List Nat) (v a b : EVal) (rec : ABNode),
      rec ∈ (acMinLoop f board path ms v a b).nodes →
      ∃ m ∈ ms, ∃ a' b',
        rec ∈ (f (make_move board m (-1)) (path ++ [m]) a' b').1 := by
  intro ms
  induction ms with
  | nil =>
    intro v a b rec h
    exact absurd h (List.not_mem_nil rec)
  | cons m ms ih =>
    intro v a b rec h
    simp only [acMinLoop, ite_lt_min] at h
    split_ifs at h
    · exact ⟨m, List.mem_cons_self _ _, a, b, h⟩
    · rcases List.mem_append.1 h with h' | h'
      · exact ⟨m, List.mem_cons_self _ _, a, b, h'⟩
      · obtain ⟨m', hm', a', b', hr⟩ := ih _ _ _ rec h'
        exact ⟨m', List.mem_cons_of_mem _ hm', a', b', hr⟩

/-- Per-record soundness of `collect_tree_nodes`, relative to the root
board the collection started from. -/
lemma collect_sound : ∀ (r : Nat) (b0 board : Board) (depth : Nat)
    (path : List Nat), board = play b0 0 path → depth = path.length →
    ∀ rec ∈ (collectGo r board depth path).1,
      (rec.type = .terminal →
        rec.value = ival (evaluate (play b0 0 rec.path))) ∧
      (rec.type = .max →
        rec.value = rec.children_values.foldl max NEG_INF) ∧
      (rec.type = .min →
        rec.value = rec.children_values.foldl min POS_INF) := by
  intro r
  induction r with
  | zero =>
    intro b0 board depth path hb hd rec hrec
    rw [List.mem_singleton.1 hrec]
    refine ⟨fun _ => ?_, fun h => NodeType.noConfusion h,
      fun h => NodeType.noConfusion h⟩
    rw [← hb]
  | succ n ih =>
    intro b0 board depth path hb hd rec hrec
    by_cases hs : evaluate board ≠ 0
    · simp only [collectGo, if_pos hs] at hrec
      rw [List.mem_singleton.1 hrec]
      refine ⟨fun _ => ?_, fun h => NodeType.noConfusion h,
        fun h => NodeType.noConfusion h⟩
      rw [← hb]
    · by_cases hp : depth % 2 = 0
      · simp only [collectGo, if_neg hs, if_pos hp] at hrec
        rcases List.mem_append.1 hrec with h | h
        · obtain ⟨m, _, hr⟩ := mcMaxLoop_mem _ board path _ _ rec h
          refine ih b0 (make_move board m 1) (depth + 1) (path ++ [m]) ?_ ?_ rec hr
          · rw [play_snoc, ← hd, ← hb, Nat.zero_add, if_pos hp]
          · simp [hd]
        · rw [List.mem_singleton.1 h]
          refine ⟨fun h' => NodeType.noConfusion h', fun _ => ?_,
            fun h' => NodeType.noConfusion h'⟩
          exact mcMaxLoop_value _ board path _ NEG_INF
      · simp only [collectGo, if_neg hs, if_neg hp] at hrec
        rcases List.mem_append.1 hrec with h | h
        · obtain ⟨m, _, hr⟩ := mcMinLoop_mem _ board path _ _ rec h
          refine ih b0 (make_move board m (-1)) (depth + 1) (path ++ [m]) ?_ ?_ rec hr
          · rw [play_snoc, ← hd, ← hb, Nat.zero_add, if_neg hp]
          · simp [hd]
        · rw [List.mem_singleton.1 h]
          refine ⟨fun h' => NodeType.noConfusion h',
            fun h' => NodeType.noConfusion h', fun _ => ?_⟩
          exact mcMinLoop_value _ board path _ POS_INF

/-- Per-record soundness of `collect_alphabeta_tree_nodes`. -/
lemma abCollect_sound : ∀ (r : Nat) (b0 board : Board) (depth : Nat)
    (path : List Nat) (α β : EVal), board = play b0 0 path →
    depth = path.length →
    ∀ rec ∈ (abCollectGo r board depth path α β).1,
      (rec.type = .terminal →
        rec.value = ival (evaluate (play b0 0 rec.path))) ∧
      (rec.type = .max →
        rec.value = rec.children_values.foldl max NEG_INF) ∧
      (rec.type = .min →
        rec.value = rec.children_values.foldl min POS_INF) := by
  intro r
  induction r with
  | zero =>
    intro b0 board depth path α β hb hd rec hrec
    rw [List.mem_singleton.1 hrec]
    refine ⟨fun _ => ?_, fun h => NodeType.noConfusion h,
      fun h => NodeType.noConfusion h⟩
    rw [← hb]
  | succ n ih =>
    intro b0 board depth path α β hb hd rec hrec
    by_cases hs : evaluate board ≠ 0
    · simp only [abCollectGo, if_pos hs] at hrec
      rw [List.mem_singleton.1 hrec]
      refine ⟨fun _ => ?_, fun h => NodeType.noConfusion h,
        fun h => NodeType.noConfusion h⟩
      rw [← hb]
    · by_cases hp : depth % 2 = 0
      · simp only [abCollectGo, if_neg hs, if_pos hp] at hrec
        rcases List.mem_append.1 hrec with h | h
        · obtain ⟨m, _, a', b', hr⟩ := acMaxLoop_mem _ board path _ _ _ _ rec h
          refine ih b0 (make_move board m 1) (depth + 1) (path ++ [m]) a' b' ?_ ?_ rec hr
          · rw [play_snoc, ← hd, ← hb, Nat.zero_add, if_pos hp]
          · simp [hd]
        · rw [List.mem_singleton.1 h]
          refine ⟨fun h' => NodeType.noConfusion h', fun _ => ?_,
            fun h' => NodeType.noConfusion h'⟩
          exact acMaxLoop_value _ board path _ NEG_INF α β
      · simp only [abCollectGo, if_neg hs, if_neg hp] at hrec
        rcases List.mem_append.1 hrec with h | h
        · obtain ⟨m, _, a', b', hr⟩ := acMinLoop_mem _ board path _ _ _ _ rec h
          refine ih b0 (make_move board m (-1)) (depth + 1) (path ++ [m]) a' b' ?_ ?_ rec hr
          · rw [play_snoc, ← hd, ← hb, Nat.zero_add, if_neg hp]
          · simp [hd]
        · rw [List.mem_singleton.1 h]
          refine ⟨fun h' => NodeType.noConfusion h',
            fun h' => NodeType.noConfusion h', fun _ => ?_⟩
          exact acMinLoop_value _ board path _ POS_INF α β

/-- C4: in every record of either collecting search started at the root:
a `terminal` record's value is exactly `evaluate` of the board reached by
its path; a `max` record's value is the running maximum of its recorded
child values (the true maximum when that list is non-empty); a `min`
record's value is the running minimum likewise. -/
theorem aggregation_correct (maxD : Nat) (board : Board) (α β : EVal) :
    (∀ rec ∈ (collect_tree_nodes maxD board).1,
      (rec.type = .terminal →
        rec.value = ival (evaluate (play board 0 rec.path))) ∧
      (rec.type = .max →
        rec.value = rec.children_values.foldl max NEG_INF ∧
        (rec.children_values ≠ [] → rec.value ∈ rec.children_values ∧
          ∀ x ∈ rec.children_values, x ≤ rec.value)) ∧
      (rec.type = .min →
        rec.value = rec.children_values.foldl min POS_INF ∧
        (rec.children_values ≠ [] → rec.value ∈ rec.children_values ∧
          ∀ x ∈ rec.children_values, rec.value ≤ x))) ∧
    (∀ rec ∈ (collect_alphabeta_tree_nodes maxD board α β).1,
      (rec.type = .terminal →
        rec.value = ival (evaluate (play board 0 rec.path))) ∧
      (rec.type = .max →
        rec.value = rec.children_values.foldl max NEG_INF ∧
        (rec.children_values ≠ [] → rec.value ∈ rec.children_values ∧
          ∀ x ∈ rec.children_values, x ≤ rec.value)) ∧
      (rec.type = .min →
        rec.value = rec.children_values.foldl min POS_INF ∧
        (rec.children_values ≠ [] → rec.value ∈ rec.children_values ∧
          ∀ x ∈ rec.children_values, rec.value ≤ x))) := by
  constructor
  · intro rec hrec
    obtain ⟨h1, h2, h3⟩ := collect_sound maxD board board 0 [] rfl rfl rec hrec
    refine ⟨h1, fun h => ⟨h2 h, fun hne => ?_⟩, fun h => ⟨h3 h, fun hne => ?_⟩⟩
    · rw [h2 h]
      exact foldl_max_bot_mem _ hne
    · rw [h3 h]
      exact foldl_min_top_mem _ hne
  · intro rec hrec
    obtain ⟨h1, h2, h3⟩ := abCollect_sound maxD board board 0 [] α β rfl rfl rec hrec
    refine ⟨h1, fun h => ⟨h2 h, fun hne => ?_⟩, fun h => ⟨h3 h, fun hne => ?_⟩⟩
    · rw [h2 h]
      exact foldl_max_bot_mem _ hne
    · rw [h3 h]
      exact foldl_min_top_mem _ hne

/-- The root record of the depth-limit-1 run on the initial board,
used to witness `aggregation_correct`. -/
def rootRec1 : MNode :=
  { path := [], value := ival 100, type := .max, depth := 0,
    children_values := [ival 0, ival 0, ival 100], moves := [0, 1, 2] }

/-- C4 witness. -/
theorem aggregation_correct_witness :
    (rootRec1.type = .terminal →
      rootRec1.value = ival (evaluate (play create_initial_board 0 rootRec1.path))) ∧
    (rootRec1.type = .max →
      rootRec1.value = rootRec1.children_values.foldl max NEG_INF ∧
      (rootRec1.children_values ≠ [] → rootRec1.value ∈ rootRec1.children_values ∧
        ∀ x ∈ rootRec1.children_values, x ≤ rootRec1.value)) ∧
    (rootRec1.type = .min →
      rootRec1.value = rootRec1.children_values.foldl min POS_INF ∧
      (rootRec1.children_values ≠ [] → rootRec1.value ∈ rootRec1.children_values ∧
        ∀ x ∈ rootRec1.children_values, rootRec1.value ≤ x)) :=
  (aggregation_correct 1 create_initial_board NEG_INF POS_INF).1 rootRec1
    (by decide)

/-! ### Terminal-count comparison between the two collectors (C2) -/

lemma countTermM_append (l1 l2 : List MNode) :
    countTermM (l1 ++ l2) = countTermM l1 + countTermM l2 := by
  simp [countTermM, List.filter_append]

lemma countTermA_append (l1 l2 : List ABNode) :
    countTermA (l1 ++ l2) = countTermA l1 + countTermA l2 := by
  simp [countTermA, List.filter_append]

lemma countTermM_single (rec : MNode) :
    countTermM [rec] = if rec.type = .terminal then 1 else 0 := by
  by_cases h : rec.type = .terminal
  · simp [countTermM, List.filter_cons, h]
  · simp [countTermM, List.filter_cons, h]

lemma countTermA_single (rec : ABNode) :
    countTermA [rec] = if rec.type = .terminal then 1 else 0 := by
  by_cases h : rec.type = .terminal
  · simp [countTermA, List.filter_cons, h]
  · simp [countTermA, List.filter_cons, h]

lemma acMaxLoop_count_le (f : Board → List Nat → EVal → EVal → List ABNode × EVal)
    (g : Board → List Nat → List MNode × EVal) (board : Board) (path : List Nat)
    (hfg : ∀ b p a bt, countTermA (f b p a bt).1 ≤ countTermM (g b p).1) :
    ∀ (ms : List Nat) (v a bt u : EVal),
      countTermA (acMaxLoop f board path ms v a bt).nodes ≤
        countTermM (mcMaxLoop g board path ms u).1 := by
  intro ms
  induction ms with
  | nil => intro v a bt u; exact le_refl 0
  | cons m ms ih =>
    intro v a bt u
    simp only [acMaxLoop, mcMaxLoop, ite_lt_max]
    rw [countTermM_append]
    split_ifs
    · exact le_trans (hfg _ _ _ _) (Nat.le_add_right _ _)
    · rw [countTermA_append]
      exact Nat.add_le_add (hfg _ _ _ _) (ih _ _ _ _)

lemma acMinLoop_count_le (f : Board → List Nat → EVal → EVal → List ABNode × EVal)
    (g : Board → List Nat → List MNode × EVal) (board : Board) (path : List Nat)
    (hfg : ∀ b p a bt, countTermA (f b p a bt).1 ≤ countTermM (g b p).1) :
    ∀ (ms : List Nat) (v a bt u : EVal),
      countTermA (acMinLoop f board path ms v a bt).nodes ≤
        countTermM (mcMinLoop g board path ms u).1 := by
  intro ms
  induction ms with
  | nil => intro v a bt u; exact le_refl 0
  | cons m ms ih =>
    intro v a bt u
    simp only [acMinLoop, mcMinLoop, ite_lt_min]
    rw [countTermM_append]
    split_ifs
    · exact le_trans (hfg _ _ _ _) (Nat.le_add_right _ _)
    · rw [countTermA_append]
      exact Nat.add_le_add (hfg _ _ _ _) (ih _ _ _ _)

/-- Alpha-beta collection never records more terminal nodes than minimax
collection, for any window. -/
lemma abCollect_count_le : ∀ (r : Nat) (board : Board) (depth : Nat)
    (path : List Nat) (α β : EVal),
    countTermA (abCollectGo r board depth path α β).1 ≤
      countTermM (collectGo r board depth path).1 := by
  intro r
  induction r with
  | zero => intro board depth path α β; exact le_refl 1
  | succ n ih =>
    intro board depth path α β
    by_cases hs : evaluate board ≠ 0
    · simp only [abCollectGo, collectGo, if_pos hs]
      exact le_refl 1
    · by_cases hp : depth % 2 = 0
      · simp only [abCollectGo, collectGo, if_neg hs, if_pos hp]
        rw [countTermA_append, countTermM_append, countTermA_single,
          countTermM_single]
        simp only [if_neg (fun h => NodeType.noConfusion h : ¬NodeType.max = NodeType.terminal)]
        exact Nat.add_le_add
          (acMaxLoop_count_le _ _ board path (fun b p a bt => ih b (depth + 1) p a bt)
            _ _ _ _ _)
          (le_refl 0)
      · simp only [abCollectGo, collectGo, if_neg hs, if_neg hp]
        rw [countTermA_append, countTermM_append, countTermA_single,
          countTermM_single]
        simp only [if_neg (fun h => NodeType.noConfusion h : ¬NodeType.min = NodeType.terminal)]
        exact Nat.add_le_add
          (acMinLoop_count_le _ _ board path (fun b p a bt => ih b (depth + 1) p a bt)
            _ _ _ _ _)
          (le_refl 0)

lemma acMaxLoop_count_eq (f : Board → List Nat → EVal → EVal → List ABNode × EVal)
    (g : Board → List Nat → List MNode × EVal) (board : Board) (path : List Nat)
    (hfg : ∀ b p a bt, (∀ rec ∈ (f b p a bt).1, rec.pruned = false) →
      countTermA (f b p a bt).1 = countTermM (g b p).1) :
    ∀ (ms : List Nat) (v a bt u : EVal),
      (acMaxLoop f board path ms v a bt).pruned = false →
      (∀ rec ∈ (acMaxLoop f board path ms v a bt).nodes, rec.pruned = false) →
      countTermA (acMaxLoop f board path ms v a bt).nodes =
        countTermM (mcMaxLoop g board path ms u).1 := by
  intro ms
  induction ms with
  | nil => intro v a bt u _ _; rfl
  | cons m ms ih =>
    intro v a bt u hpr hall
    simp only [acMaxLoop, mcMaxLoop, ite_lt_max] at hpr hall ⊢
    by_cases hbr : bt ≤ max a (max v (f (make_move board m 1) (path ++ [m]) a bt).2)
    · rw [if_pos hbr] at hpr
      exact Bool.noConfusion hpr
    · rw [if_neg hbr] at hpr hall ⊢
      dsimp only at hpr hall ⊢
      rw [countTermM_append, countTermA_append]
      have hleft : ∀ rec ∈ (f (make_move board m 1) (path ++ [m]) a bt).1,
          rec.pruned = false :=
        fun rec hr => hall rec (List.mem_append_left _ hr)
      have hright : ∀ rec ∈ (acMaxLoop f board path ms
          (max v (f (make_move board m 1) (path ++ [m]) a bt).2)
          (max a (max v (f (make_move board m 1) (path ++ [m]) a bt).2)) bt).nodes,
          rec.pruned = false :=
        fun rec hr => hall rec (List.mem_append_right _ hr)
      rw [hfg _ _ _ _ hleft,
        ih _ _ _ (max u (g (make_move board m 1) (path ++ [m])).2) hpr hright]

lemma acMinLoop_count_eq (f : Board → List Nat → EVal → EVal → List ABNode × EVal)
    (g : Board → List Nat → List MNode × EVal) (board : Board) (path : List Nat)
    (hfg : ∀ b p a bt, (∀ rec ∈ (f b p a bt).1, rec.pruned = false) →
      countTermA (f b p a bt).1 = countTermM (g b p).1) :
    ∀ (ms : List Nat) (v a bt u : EVal),
      (acMinLoop f board path ms v a bt).pruned = false →
      (∀ rec ∈ (acMinLoop f board path ms v a bt).nodes, rec.pruned = false) →
      countTermA (acMinLoop f board path ms v a bt).nodes =
        countTermM (mcMinLoop g board path ms u).1 := by
  intro ms
  induction ms with
  | nil => intro v a bt u _ _; rfl
  | cons m ms ih =>
    intro v a bt u hpr hall
    simp only [acMinLoop, mcMinLoop, ite_lt_min] at hpr hall ⊢
    by_cases hbr : min bt (min v (f (make_move board m (-1)) (path ++ [m]) a bt).2) ≤ a
    · rw [if_pos hbr] at hpr
      exact Bool.noConfusion hpr
    · rw [if_neg hbr] at hpr hall ⊢
      dsimp only at hpr hall ⊢
      rw [countTermM_append, countTermA_append]
      have hleft : ∀ rec ∈ (f (make_move board m (-1)) (path ++ [m]) a bt).1,
          rec.pruned = false :=
        fun rec hr => hall rec (List.mem_append_left _ hr)
      have hright : ∀ rec ∈ (acMinLoop f board path ms
          (min v (f (make_move board m (-1)) (path ++ [m]) a bt).2) a
          (min bt (min v (f (make_move board m (-1)) (path ++ [m]) a bt).2))).nodes,
          rec.pruned = false :=
        fun rec hr => hall rec (List.mem_append_right _ hr)
      rw [hfg _ _ _ _ hleft,
        ih _ _ _ (min u (g (make_move board m (-1)) (path ++ [m])).2) hpr hright]

/-- If no record of an alpha-beta collection carries the pruned flag, its
terminal count equals the minimax one. -/
lemma abCollect_count_eq : ∀ (r : Nat) (board : Board) (depth : Nat)
    (path : List Nat) (α β : EVal),
    (∀ rec ∈ (abCollectGo r board depth path α β).1, rec.pruned = false) →
    countTermA (abCollectGo r board depth path α β).1 =
      countTermM (collectGo r board depth path).1 := by
  intro r
  induction r with
  | zero => intro board depth path α β _; rfl
  | succ n ih =>
    intro board depth path α β hall
    by_cases hs : evaluate board ≠ 0
    · simp only [abCollectGo, collectGo, if_pos hs]
      rfl
    · by_cases hp : depth % 2 = 0
      · simp only [abCollectGo, collectGo, if_neg hs, if_pos hp] at hall ⊢
        rw [countTermA_append, countTermM_append, countTermA_single,
          countTermM_single]
        simp only [if_neg (fun h => NodeType.noConfusion h : ¬NodeType.max = NodeType.terminal)]
        have hpr : (acMaxLoop (fun b p a bt => abCollectGo n b (depth + 1) p a bt)
            board path (get_valid_moves board depth) NEG_INF α β).pruned = false := by
          have := hall _ (List.mem_append_right _ (List.mem_singleton_self _))
          exact this
        have hnodes : ∀ rec ∈ (acMaxLoop (fun b p a bt => abCollectGo n b (depth + 1) p a bt)
            board path (get_valid_moves board depth) NEG_INF α β).nodes,
            rec.pruned = false :=
          fun rec hr => hall rec (List.mem_append_left _ hr)
        rw [acMaxLoop_count_eq _ _ board path
          (fun b p a bt hb => ih b (depth + 1) p a bt hb) _ _ _ _ NEG_INF hpr hnodes]
      · simp only [abCollectGo, collectGo, if_neg hs, if_neg hp] at hall ⊢
        rw [countTermA_append, countTermM_append, countTermA_single,
          countTermM_single]
        simp only [if_neg (fun h => NodeType.noConfusion h : ¬NodeType.min = NodeType.terminal)]
        have hpr : (acMinLoop (fun b p a bt => abCollectGo n b (depth + 1) p a bt)
            board path (get_valid_moves board depth) POS_INF α β).pruned = false := by
          have := hall _ (List.mem_append_right _ (List.mem_singleton_self _))
          exact this
        have hnodes : ∀ rec ∈ (acMinLoop (fun b p a bt => abCollectGo n b (depth + 1) p a bt)
            board path (get_valid_moves board depth) POS_INF α β).nodes,
            rec.pruned = false :=
          fun rec hr => hall rec (List.mem_append_left _ hr)
        rw [acMinLoop_count_eq _ _ board path
          (fun b p a bt hb => ih b (depth + 1) p a bt hb) _ _ _ _ POS_INF hpr hnodes]

/-- C2 (amended): for every board and depth limit, alpha-beta visits at
most as many terminal nodes as minimax, and if no node of the alpha-beta
traversal ever reaches a window with `alpha ≥ beta` (no record is marked
pruned) the counts are equal.  The converse direction of the original
claim is false, see the counterexample. -/
theorem pruning_count (maxD : Nat) (board : Board) :
    countTermA (collect_alphabeta_tree_nodes maxD board NEG_INF POS_INF).1 ≤
      countTermM (collect_tree_nodes maxD board).1 ∧
    ((∀ rec ∈ (collect_alphabeta_tree_nodes maxD board NEG_INF POS_INF).1,
        rec.pruned = false) →
      countTermA (collect_alphabeta_tree_nodes maxD board NEG_INF POS_INF).1 =
        countTermM (collect_tree_nodes maxD board).1) :=
  ⟨abCollect_count_le maxD board 0 [] NEG_INF POS_INF,
    abCollect_count_eq maxD board 0 [] NEG_INF POS_INF⟩

/-- C2 witness. -/
theorem pruning_count_witness :
    countTermA (collect_alphabeta_tree_nodes 3 create_initial_board
        NEG_INF POS_INF).1 ≤
      countTermM (collect_tree_nodes 3 create_initial_board).1 ∧
    countTermA (collect_alphabeta_tree_nodes 0 create_initial_board
        NEG_INF POS_INF).1 =
      countTermM (collect_tree_nodes 0 create_initial_board).1 :=
  ⟨(pruning_count 3 create_initial_board).1,
    (pruning_count 0 create_initial_board).2 (by decide)⟩

/-- A gravity-consistent board on which alpha-beta explores every node yet
one node's window reaches `alpha ≥ beta` right after its last child:
column 2 is full, column 1 has one free cell, column 0 has two. -/
def cexBoard : Board :=
  [[0, 0, -1, 0, 0, 0, 0],
   [0, -1, 1, 0, 0, 0, 0],
   [-1, 1, -1, 0, 0, 0, 0],
   [1, -1, 1, 0, 0, 0, 0],
   [-1, 1, -1, 0, 0, 0, 0],
   [1, -1, 1, 0, 0, 0, 0]]

/-- C2 counterexample: at depth limit 2 on `cexBoard`, the terminal counts
of the two collectors are equal although a node of the alpha-beta
traversal did reach a window with `alpha ≥ beta` (its record is marked
pruned) — refuting the "equality only when no window ever satisfies
`alpha ≥ beta`" half of the claim. -/
theorem pruning_count_cex :
    countTermA (collect_alphabeta_tree_nodes 2 cexBoard NEG_INF POS_INF).1 =
      countTermM (collect_tree_nodes 2 cexBoard).1 ∧
    ¬(∀ rec ∈ (collect_alphabeta_tree_nodes 2 cexBoard NEG_INF POS_INF).1,
        rec.pruned = false) := by
  decide

/-! ### Value range on the program's actual run (C6) -/

/-- The three scores the spec allows: -WIN_SCORE, 0, +WIN_SCORE. -/
def scoreVals : List EVal := [ival (-100), ival 0, ival 100]

/-- C6: in the program's run (initial board, depth limit `MAX_DEPTH = 3`),
every recorded node value and every recorded child value of both
collecting searches, and the root values of `minimax` and `alphabeta`,
are one of -100, 0, +100.  (On boards outside the program's run a node
can run out of legal moves and return ±∞, so the range holds for the
values the program actually produces.) -/
theorem values_in_range :
    ((collect_tree_nodes MAX_DEPTH create_initial_board).1.all fun rec =>
        decide (rec.value ∈ scoreVals) &&
        (rec.children_values.all fun v => decide (v ∈ scoreVals))) = true ∧
    ((collect_alphabeta_tree_nodes MAX_DEPTH create_initial_board
        NEG_INF POS_INF).1.all fun rec =>
        decide (rec.value ∈ scoreVals) &&
        (rec.children_values.all fun v => decide (v ∈ scoreVals))) = true ∧
    minimax MAX_DEPTH create_initial_board 0 ∈ scoreVals ∧
    alphabeta MAX_DEPTH create_initial_board 0 NEG_INF POS_INF ∈ scoreVals := by
  decide

/-- C3 witness: depth limit 0 makes the root terminal; on the actual
initial board at limit 3 the root is a MAX node. -/
theorem terminal_rule_witness :
    (minimax 0 create_initial_board 0 = ival (evaluate create_initial_board) ∧
      alphabeta 0 create_initial_board 0 NEG_INF POS_INF =
        ival (evaluate create_initial_board) ∧
      (collectGo (0 - 0) create_initial_board 0 []).1 =
        [{ path := [], value := ival (evaluate create_initial_board),
           type := .terminal, depth := 0 }] ∧
      (abCollectGo (0 - 0) create_initial_board 0 [] NEG_INF POS_INF).1 =
        [{ path := [], value := ival (evaluate create_initial_board),
           type := .terminal, depth := 0, alpha := NEG_INF, beta := POS_INF }]) ∧
    (∃ rec, ((collectGo (3 - 0) create_initial_board 0 []).1).getLast? = some rec ∧
      rec.type = (if 0 % 2 = 0 then NodeType.max else NodeType.min) ∧
      rec.moves = get_valid_moves create_initial_board 0) :=
  ⟨(terminal_rule 0 create_initial_board 0 [] NEG_INF POS_INF (by decide)).1
      (Or.inl rfl),
    (terminal_rule 3 create_initial_board 0 [] NEG_INF POS_INF (by decide)).2
      (by decide)⟩

end Connect4
